import Mathlib

/-!
Verification of the privacy-journal document store and semantic index.

The definitions below are a shallow embedding of the TypeScript source:
the entry codec (front-matter writer of `createJournalEntry` and the
front-matter regex parser of `getAllJournalEntries` / `getJournalEntryById`),
the folder-path walk of `useFolders.getFolderPath`, the repository
provisioning flow (`ensureRepoExists` / `createRepo`), the vector-index
rebuild (`rebuildVectorIndex`), cosine-similarity search (`semanticSearch`,
`cosineSimilarity`), and `updateJournalEntry`.

Texts handled character-by-character (the payload codec) are modelled as
`List Char`; other strings are Lean `String`s; JavaScript numbers are
modelled as real numbers.
-/

/-! ## Entry codec -/

/-- Characters removed by JavaScript `String.prototype.trim` at either end
(the ASCII ones, which are the ones journal payloads contain). -/
def isJsSpace (c : Char) : Bool :=
  c == ' ' || c == '\t' || c == '\n' || c == '\r' || c == '\x0b' || c == '\x0c'

/-- The `body.trim()` call as applied by the decoder to the text after the front matter. -/
def trimChars (s : List Char) : List Char :=
  ((s.dropWhile isJsSpace).reverse.dropWhile isJsSpace).reverse

/-- First-occurrence split: mirrors a JavaScript regex locating the first
occurrence of the literal `pat` inside `s`, returning the text before and
after that occurrence, or `none` when `pat` does not occur. -/
def splitOnSub (pat : List Char) : List Char → Option (List Char × List Char)
  | [] => if pat.isPrefixOf ([] : List Char) then some ([], []) else none
  | c :: cs =>
    if pat.isPrefixOf (c :: cs) then some ([], (c :: cs).drop pat.length)
    else
      match splitOnSub pat cs with
      | some (x, y) => some (c :: x, y)
      | none => none

/-- Whether `pat` occurs as a contiguous substring of `s`. -/
def hasSub (pat : List Char) : List Char → Bool
  | [] => pat.isPrefixOf ([] : List Char)
  | c :: cs => pat.isPrefixOf (c :: cs) || hasSub pat cs

/-- The opening delimiter line of the front-matter block. -/
def fmOpen : List Char := ("---\n").toList

/-- The closing delimiter of the front-matter block, followed by the blank
line required before the body. -/
def fmClose : List Char := ("\n---\n\n").toList

/-- Leftmost match of the decoder regex
`---\n([V]*?)\n---\n\n([V]*)` (with `[V]` any character): at the first
position where the payload starts with the opening delimiter and the rest
still contains the closing delimiter, return the front matter and the body. -/
def fmMatch : List Char → Option (List Char × List Char)
  | [] => none
  | c :: cs =>
    if fmOpen.isPrefixOf (c :: cs) then
      match splitOnSub fmClose ((c :: cs).drop 4) with
      | some r => some r
      | none => fmMatch cs
    else fmMatch cs

/-- Mirrors `frontMatter.match(/key (.*)/)`: find the first occurrence of the
key anywhere in the front matter and capture the remainder of that line. -/
def extractField (key fm : List Char) : Option (List Char) :=
  match splitOnSub key fm with
  | none => none
  | some (_, rest) => some (rest.takeWhile (fun c => c != '\n'))

def titleKey : List Char := ("title: ").toList

def createdAtKey : List Char := ("createdAt: ").toList

def updatedAtKey : List Char := ("updatedAt: ").toList

def folderIdKey : List Char := ("folderId: ").toList

/-- The five payload-carried fields of a journal entry (the id is the file
name, not part of the payload). -/
structure EntryData where
  title : List Char
  createdAt : List Char
  updatedAt : List Char
  folderId : Option (List Char)
  content : List Char
deriving DecidableEq

/-- The front-matter text written by `createJournalEntry`: the `folderId`
line is appended only when the value is present and non-empty (JavaScript
truthiness of the string). -/
def encodeFrontMatter (e : EntryData) : List Char :=
  titleKey ++ e.title
    ++ '\n' :: (createdAtKey ++ e.createdAt)
    ++ '\n' :: (updatedAtKey ++ e.updatedAt)
    ++ (match e.folderId with
        | some f => if f = [] then [] else '\n' :: (folderIdKey ++ f)
        | none => [])

/-- The full payload written by `createJournalEntry`: delimited front
matter, a blank line, then the body verbatim. -/
def encodeEntry (e : EntryData) : List Char :=
  fmOpen ++ encodeFrontMatter e ++ fmClose ++ e.content

/-- The decoder of `getAllJournalEntries` / `getJournalEntryById`: match the
front-matter regex, capture each field line with its default (`Untitled`
for the title, the current time `now` for the timestamps, absent for
`folderId`), and trim the body. `none` when the block does not parse. -/
def decodeEntry (now : List Char) (s : List Char) : Option EntryData :=
  match fmMatch s with
  | none => none
  | some (fm, body) =>
    some
      { title := (extractField titleKey fm).getD (("Untitled").toList)
        createdAt := (extractField createdAtKey fm).getD now
        updatedAt := (extractField updatedAtKey fm).getD now
        folderId := extractField folderIdKey fm
        content := trimChars body }

/-- The lines of a text (separator `\n`), used to state the delimiter-line
side condition of the round-trip law. -/
def splitLines : List Char → List (List Char)
  | [] => [[]]
  | c :: cs =>
    if c = '\n' then [] :: splitLines cs
    else
      match splitLines cs with
      | [] => [[c]]
      | l :: ls => (c :: l) :: ls

/-- Whether some line of the text is exactly the delimiter `---`. -/
def hasDelimiterLine (s : List Char) : Bool :=
  (splitLines s).any (fun l => l == ("---").toList)

/-! ## Folder path walk (`useFolders.getFolderPath`) -/

/-- Folder record of `GithubService.Folder`. -/
structure Folder where
  id : String
  name : String
  description : Option String
  createdAt : String
  updatedAt : String
  parentId : Option String
  color : Option String
deriving DecidableEq

/-- Model of `getFolderById`: first folder in the collection with the given id. -/
def getFolderById (folders : List Folder) (id : String) : Option Folder :=
  folders.find? (fun f => f.id == id)

/-- One unrolling of `getFolderPath`'s `while (currentFolder)` loop per unit
of fuel; `none` means the fuel ran out with the loop still running. -/
def getFolderPathLoop (folders : List Folder) :
    Option Folder → List Folder → Nat → Option (List Folder)
  | none, path, _ => some path
  | some _, _, 0 => none
  | some f, path, n + 1 =>
    getFolderPathLoop folders
      (match f.parentId with
       | some p => getFolderById folders p
       | none => none)
      (f :: path) n

/-- Model of `getFolderPath folderId`, allowed at most `fuel` loop iterations. The
source loop has no cycle detection, so on a cyclic `parentId` chain this
returns `none` for every fuel value. -/
def getFolderPath (folders : List Folder) (folderId : String) (fuel : Nat) :
    Option (List Folder) :=
  getFolderPathLoop folders (getFolderById folders folderId) [] fuel

/-! ## Repository provisioning (`ensureRepoExists` / `createRepo`) -/

/-- Outcome of one GitHub `repos.createForAuthenticatedUser` call: success,
or an HTTP error carrying its status and whether its error list contains a
message mentioning "already exists". -/
inductive CreateResult where
  | success
  | httpError (status : Nat) (alreadyExists : Bool)
deriving DecidableEq

/-- The two mutable service fields touched by provisioning. -/
structure ProvState where
  repoName : String
  githubAvailable : Bool
deriving DecidableEq

/-- Model of `createRepo`: a 422 "already exists" error is caught inside the method,
flips `githubAvailable` to false and returns normally; any other error is
rethrown. The first component is `some err` when the call threw `err`. -/
def createRepoModel (r : CreateResult) (st : ProvState) :
    Option (Nat × Bool) × ProvState :=
  match r with
  | .success => (none, st)
  | .httpError status alreadyExists =>
    if status == 422 && alreadyExists then (none, { st with githubAvailable := false })
    else (some (status, alreadyExists), st)

/-- The remote environment one `ensureRepoExists` run observes. -/
structure ProvEnv where
  listedRepos : Option (List String)
  repoGetOk : String → Bool
  createResult : Nat → CreateResult
  timestamp : String

/-- Result of an `ensureRepoExists` run: the returned boolean, the final
service state, and how many `createRepo` calls were made. -/
structure ProvOutcome where
  result : Bool
  state : ProvState
  createCalls : Nat
deriving DecidableEq

/-- The name sanitizer `username.replace(/[^a-zA-Z0-9-]/g, "-")`. -/
def sanitize (u : String) : String :=
  String.mk (u.toList.map (fun c =>
    if c.isAlpha || c.isDigit || c == '-' then c else '-'))

/-- The timestamp-suffixed repository name of the conflict-retry branch. -/
def timestampRepoName (username timestamp : String) : String :=
  "privacy-journal-entries-" ++ sanitize username ++ "-" ++ timestamp

/-- Model of `ensureRepoExists`: look for the derived name in the repository listing,
then by direct access, then attempt creation; the catch block around
creation holds the timestamp-rename retry for a 422 "already exists"
failure, and any other failure ends with `githubAvailable = false`. -/
def ensureRepoExists (env : ProvEnv) (username : String) (st : ProvState) :
    ProvOutcome :=
  let listedFound :=
    match env.listedRepos with
    | some repos => repos.contains st.repoName
    | none => false
  if listedFound then ⟨true, st, 0⟩
  else if env.repoGetOk st.repoName then ⟨true, st, 0⟩
  else
    match createRepoModel (env.createResult 0) st with
    | (none, st1) => ⟨true, st1, 1⟩
    | (some (status, alreadyExists), st1) =>
      if status == 422 && alreadyExists then
        let st2 := { st1 with repoName := timestampRepoName username env.timestamp }
        match createRepoModel (env.createResult 1) st2 with
        | (none, st3) => ⟨true, st3, 2⟩
        | (some _, st3) => ⟨false, { st3 with githubAvailable := false }, 2⟩
      else ⟨false, { st1 with githubAvailable := false }, 1⟩

/-! ## Vector-index rebuild (`rebuildVectorIndex`) -/

/-- An entry as consumed by the vector-index routines. -/
structure REntry where
  id : String
  title : String
  content : String
deriving DecidableEq

/-- The text handed to the embedding provider for an entry. -/
def entryText (e : REntry) : String := e.title ++ "\n\n" ++ e.content

/-- The persisted id → embedding map, generic in the embedding payload
(the rebuild routine never inspects the vectors themselves). -/
abbrev VDB (V : Type) := List (String × V)

/-- Lookup of `db[id]`. -/
def dbLookup {V : Type} (db : VDB V) (k : String) : Option V :=
  (db.find? (fun p => p.1 == k)).map (fun p => p.2)

/-- The write `db[id] = v` for an id not yet present. -/
def dbInsert {V : Type} (db : VDB V) (k : String) (v : V) : VDB V :=
  db ++ [(k, v)]

/-- Everything observable about one `rebuildVectorIndex` run: the resulting
map, the returned counters, the number of embedding-provider calls, the
progress reports in order, and the maps handed to `saveVectorDB`. -/
structure RebuildResult (V : Type) where
  db : VDB V
  processed : Nat
  errors : Nat
  embedCalls : Nat
  progress : List (Nat × Nat)
  saved : List (VDB V)
deriving DecidableEq

/-- The per-entry loop of `rebuildVectorIndex`: an entry already in the map
is skipped; otherwise the embedding provider is called (counted in
`embedCalls`) and the vector recorded on success, or the error counter is
incremented on failure; progress is reported after every entry. -/
def rebuildLoop {V : Type} (embed : String → Option V) (total : Nat) :
    List REntry → VDB V → Nat → Nat → Nat → List (Nat × Nat) → RebuildResult V
  | [], db, p, er, ec, log => ⟨db, p, er, ec, log, []⟩
  | e :: rest, db, p, er, ec, log =>
    match dbLookup db e.id with
    | some _ => rebuildLoop embed total rest db (p + 1) er ec (log ++ [(p + 1, total)])
    | none =>
      match embed (entryText e) with
      | some v =>
        rebuildLoop embed total rest (dbInsert db e.id v) (p + 1) er (ec + 1)
          (log ++ [(p + 1, total)])
      | none =>
        rebuildLoop embed total rest db (p + 1) (er + 1) (ec + 1)
          (log ++ [(p + 1, total)])

/-- Model of `rebuildVectorIndex`: start from a copy of the existing map, run the
loop over all entries, and persist the resulting map once at the end. -/
def rebuildVectorIndex {V : Type} (embed : String → Option V)
    (entries : List REntry) (existingDb : VDB V) : RebuildResult V :=
  let r := rebuildLoop embed entries.length entries existingDb 0 0 0 []
  { r with saved := [r.db] }

/-- The expected progress log `(p+1, total), …, (p+n, total)`. -/
def progressFrom (p total : Nat) : Nat → List (Nat × Nat)
  | 0 => []
  | m + 1 => (p + 1, total) :: progressFrom (p + 1) total m

/-! ## Entry update (`updateJournalEntry`) -/

/-- A journal entry as surfaced by the service. -/
structure JEntry where
  id : String
  title : String
  content : String
  createdAt : String
  updatedAt : String
  folderId : Option String
deriving DecidableEq

/-- Model of `updateJournalEntry` against the store of currently readable entries:
`null` when the id resolves to no entry, otherwise a rewrite carrying the
stored `createdAt`, the fresh `updatedAt` `now`, and the new title, content
and folder. -/
def updateJournalEntry (entries : List JEntry) (id title content : String)
    (folderId : Option String) (now : String) : Option JEntry :=
  match entries.find? (fun e => e.id == id) with
  | none => none
  | some e =>
    some { id := id, title := title, content := content,
           createdAt := e.createdAt, updatedAt := now, folderId := folderId }

/-! ## Cosine similarity and semantic search -/

/-- Model of `cosineSimilarity` with JavaScript numbers modelled as reals:
`dot(a, b) / (|a| * |b|)`, and `0` when either magnitude is zero. -/
noncomputable def cosineSimilarity (a b : List ℝ) : ℝ :=
  let dot := (List.zipWith (fun x y => x * y) a b).sum
  let magA := Real.sqrt ((a.map (fun x => x * x)).sum)
  let magB := Real.sqrt ((b.map (fun x => x * x)).sum)
  if magA = 0 ∨ magB = 0 then 0 else dot / (magA * magB)

/-- The order produced by `similarities.sort((a, b) => b.score - a.score)`:
non-increasing score. -/
def scoreGE (p q : JEntry × ℝ) : Prop := q.2 ≤ p.2

noncomputable instance : DecidableRel scoreGE :=
  fun p q => inferInstanceAs (Decidable (q.2 ≤ p.2))

instance : IsTotal (JEntry × ℝ) scoreGE := ⟨fun p q => le_total q.2 p.2⟩

instance : IsTrans (JEntry × ℝ) scoreGE := ⟨fun _ _ _ h1 h2 => le_trans h2 h1⟩

/-- Model of `semanticSearch` given the query embedding (`none` when the provider
could not supply one), the persisted vector map and the current entry
listing: score every listed entry that has an embedding, sort by descending
score, and return the first `topK` entries. -/
noncomputable def semanticSearch (queryEmbedding : Option (List ℝ))
    (vectorDb : VDB (List ℝ)) (allEntries : List JEntry) (topK : Nat) :
    List JEntry :=
  match queryEmbedding with
  | none => []
  | some q =>
    let similarities := allEntries.filterMap (fun e =>
      (dbLookup vectorDb e.id).map (fun emb => (e, cosineSimilarity q emb)))
    ((List.insertionSort scoreGE similarities).take topK).map (fun p => p.1)

/-- The similarity score `semanticSearch` associates with a listed entry
(zero for entries without an embedding, which are filtered out anyway). -/
noncomputable def entryScore (q : List ℝ) (vectorDb : VDB (List ℝ))
    (e : JEntry) : ℝ :=
  match dbLookup vectorDb e.id with
  | some emb => cosineSimilarity q emb
  | none => 0

/-! ## Lemmas about the codec primitives -/

theorem prefixOf_self_append : ∀ (p w : List Char), p.isPrefixOf (p ++ w) = true
  | [], w => by cases w <;> rfl
  | a :: p', w => by
    simp only [List.cons_append, List.isPrefixOf, Bool.and_eq_true, beq_iff_eq]
    exact ⟨trivial, prefixOf_self_append p' w⟩

theorem prefixOf_split : ∀ (pat x : List Char) (c : Char) (w : List Char),
    pat.isPrefixOf (x ++ c :: w) = true → pat.length ≤ x.length ∨ c ∈ pat
  | [], _, _, _, _ => Or.inl (Nat.zero_le _)
  | p :: ps, [], c, w, h => by
    simp only [List.nil_append, List.isPrefixOf, Bool.and_eq_true, beq_iff_eq] at h
    exact Or.inr (h.1 ▸ List.mem_cons_self _ _)
  | p :: ps, a :: xs, c, w, h => by
    simp only [List.cons_append, List.isPrefixOf, Bool.and_eq_true] at h
    rcases prefixOf_split ps xs c w h.2 with h1 | h2
    · exact Or.inl (Nat.succ_le_succ h1)
    · exact Or.inr (List.mem_cons_of_mem _ h2)

theorem prefixOf_of_le : ∀ (pat x w : List Char),
    pat.isPrefixOf (x ++ w) = true → pat.length ≤ x.length → pat.isPrefixOf x = true
  | [], x, _, _, _ => by cases x <;> rfl
  | p :: ps, [], w, _, hle => absurd hle (by simp)
  | p :: ps, a :: xs, w, h, hle => by
    simp only [List.cons_append, List.isPrefixOf, Bool.and_eq_true] at h ⊢
    exact ⟨h.1, prefixOf_of_le ps xs w h.2 (Nat.le_of_succ_le_succ hle)⟩

theorem splitOnSub_self : ∀ (pat w : List Char), pat ≠ [] →
    splitOnSub pat (pat ++ w) = some ([], w)
  | p :: ps, w, _ => by
    have hp : (p :: ps).isPrefixOf ((p :: ps) ++ w) = true := prefixOf_self_append _ _
    rw [List.cons_append] at hp
    rw [List.cons_append, splitOnSub, if_pos hp]
    rw [show p :: (ps ++ w) = (p :: ps) ++ w from rfl, List.drop_left]

theorem splitOnSub_cons_neg (pat : List Char) (c : Char) (cs : List Char)
    (h : pat.isPrefixOf (c :: cs) = false) :
    splitOnSub pat (c :: cs) = (splitOnSub pat cs).map (fun r => (c :: r.1, r.2)) := by
  rw [splitOnSub, if_neg (by simp [h])]
  cases splitOnSub pat cs with
  | none => rfl
  | some r => rfl

theorem splitOnSub_eq_none : ∀ (pat s : List Char), hasSub pat s = false →
    splitOnSub pat s = none
  | pat, [], h => by
    simp only [hasSub] at h
    simp [splitOnSub, h]
  | pat, c :: cs, h => by
    simp only [hasSub, Bool.or_eq_false_iff] at h
    rw [splitOnSub_cons_neg pat c cs h.1, splitOnSub_eq_none pat cs h.2]
    rfl

theorem splitOnSub_key (pat : List Char) (hne : pat ≠ [])
    (hnl : ∀ ch ∈ pat, ch ≠ '\n') :
    ∀ (x z : List Char), hasSub pat x = false →
      splitOnSub pat (x ++ '\n' :: z) =
        (splitOnSub pat z).map (fun r => (x ++ '\n' :: r.1, r.2))
  | [], z, _ => by
    have hp : pat.isPrefixOf ('\n' :: z) = false := by
      match pat, hne with
      | p :: ps, _ =>
        have hpn : (p == '\n') = false := beq_eq_false_iff_ne.mpr (hnl p (List.mem_cons_self _ _))
        simp [List.isPrefixOf, hpn]
    rw [List.nil_append, splitOnSub_cons_neg pat '\n' z hp]
    cases splitOnSub pat z with
    | none => rfl
    | some r => rfl
  | a :: x', z, h => by
    simp only [hasSub, Bool.or_eq_false_iff] at h
    have hp : pat.isPrefixOf ((a :: x') ++ '\n' :: z) = false := by
      cases hq : pat.isPrefixOf ((a :: x') ++ '\n' :: z) with
      | false => rfl
      | true =>
        rcases prefixOf_split pat (a :: x') '\n' z hq with h1 | h2
        · have h3 := prefixOf_of_le pat (a :: x') ('\n' :: z) hq h1
          simp [h.1] at h3
        · exact absurd rfl (hnl '\n' h2)
    rw [List.cons_append] at hp
    rw [List.cons_append, splitOnSub_cons_neg pat a _ hp,
      splitOnSub_key pat hne hnl x' z h.2]
    cases splitOnSub pat z with
    | none => rfl
    | some r => rfl

theorem splitOnSub_skip (p0 : Char) (ps : List Char) :
    ∀ (line z : List Char), (∀ ch ∈ line, ch ≠ p0) →
      splitOnSub (p0 :: ps) (line ++ z) =
        (splitOnSub (p0 :: ps) z).map (fun r => (line ++ r.1, r.2))
  | [], z, _ => by
    rw [List.nil_append]
    cases splitOnSub (p0 :: ps) z with
    | none => rfl
    | some r => rfl
  | a :: line', z, h => by
    have ha : (p0 == a) = false :=
      beq_eq_false_iff_ne.mpr (Ne.symm (h a (List.mem_cons_self _ _)))
    have hp : (p0 :: ps).isPrefixOf (a :: (line' ++ z)) = false := by
      simp [List.isPrefixOf, ha]
    rw [List.cons_append, splitOnSub_cons_neg _ a _ hp,
      splitOnSub_skip p0 ps line' z (fun ch hm => h ch (List.mem_cons_of_mem _ hm))]
    cases splitOnSub (p0 :: ps) z with
    | none => rfl
    | some r => rfl

theorem takeWhile_line : ∀ (v t : List Char), (∀ ch ∈ v, ch ≠ '\n') →
    (v ++ '\n' :: t).takeWhile (fun c => c != '\n') = v
  | [], t, _ => by simp [List.takeWhile_cons]
  | a :: v', t, h => by
    have ha : (a != '\n') = true := bne_iff_ne.mpr (h a (List.mem_cons_self _ _))
    rw [List.cons_append, List.takeWhile_cons, if_pos ha,
      takeWhile_line v' t (fun ch hm => h ch (List.mem_cons_of_mem _ hm))]

theorem takeWhile_all : ∀ (v : List Char), (∀ ch ∈ v, ch ≠ '\n') →
    v.takeWhile (fun c => c != '\n') = v
  | [], _ => rfl
  | a :: v', h => by
    have ha : (a != '\n') = true := bne_iff_ne.mpr (h a (List.mem_cons_self _ _))
    rw [List.takeWhile_cons, if_pos ha,
      takeWhile_all v' (fun ch hm => h ch (List.mem_cons_of_mem _ hm))]

theorem dropWhile_shape {α : Type} (p : α → Bool) : ∀ (l : List α),
    List.dropWhile p l = [] ∨ ∃ a t, List.dropWhile p l = a :: t ∧ p a = false
  | [] => Or.inl rfl
  | a :: l => by
    cases hpa : p a with
    | true =>
      rw [List.dropWhile_cons, if_pos hpa]
      exact dropWhile_shape p l
    | false =>
      rw [List.dropWhile_cons, if_neg (by simp [hpa])]
      exact Or.inr ⟨a, l, rfl, hpa⟩

theorem dropWhile_twice {α : Type} (p : α → Bool) (l : List α) :
    List.dropWhile p (List.dropWhile p l) = List.dropWhile p l := by
  rcases dropWhile_shape p l with h | ⟨a, t, heq, hpa⟩
  · rw [h]; rfl
  · rw [heq, List.dropWhile_cons, if_neg (by simp [hpa])]

theorem dropWhile_eq_drop {α : Type} (p : α → Bool) : ∀ (l : List α),
    ∃ n, List.dropWhile p l = l.drop n
  | [] => ⟨0, rfl⟩
  | a :: l => by
    cases hpa : p a with
    | true =>
      obtain ⟨n, hn⟩ := dropWhile_eq_drop p l
      exact ⟨n + 1, by rw [List.dropWhile_cons, if_pos hpa, List.drop_succ_cons, hn]⟩
    | false =>
      exact ⟨0, by rw [List.dropWhile_cons, if_neg (by simp [hpa]), List.drop_zero]⟩

theorem dropWhile_take_dropWhile {α : Type} (p : α → Bool) (l : List α) (m : Nat) :
    List.dropWhile p (List.take m (List.dropWhile p l)) =
      List.take m (List.dropWhile p l) := by
  rcases dropWhile_shape p l with h | ⟨a, t, heq, hpa⟩
  · rw [h, List.take_nil]; rfl
  · rw [heq]
    cases m with
    | zero => rfl
    | succ m =>
      rw [List.take_succ_cons, List.dropWhile_cons, if_neg (by simp [hpa])]

theorem trimChars_eq_take (s : List Char) :
    ∃ m, trimChars s = List.take m (List.dropWhile isJsSpace s) := by
  obtain ⟨n, hn⟩ := dropWhile_eq_drop isJsSpace (List.dropWhile isJsSpace s).reverse
  refine ⟨(List.dropWhile isJsSpace s).length - n, ?_⟩
  show ((List.dropWhile isJsSpace s).reverse.dropWhile isJsSpace).reverse = _
  rw [hn, List.drop_reverse, List.reverse_reverse]

theorem trimChars_idem (s : List Char) : trimChars (trimChars s) = trimChars s := by
  obtain ⟨m, hm⟩ := trimChars_eq_take s
  have hK1 : List.dropWhile isJsSpace (trimChars s) = trimChars s := by
    rw [hm]; exact dropWhile_take_dropWhile _ _ _
  have hrev : (trimChars s).reverse =
      List.dropWhile isJsSpace ((List.dropWhile isJsSpace s).reverse) := by
    show (((List.dropWhile isJsSpace s).reverse.dropWhile isJsSpace).reverse).reverse = _
    rw [List.reverse_reverse]
  have hK2 : List.dropWhile isJsSpace (trimChars s).reverse = (trimChars s).reverse := by
    rw [hrev]; exact dropWhile_twice _ _
  show (((trimChars s).dropWhile isJsSpace).reverse.dropWhile isJsSpace).reverse = trimChars s
  rw [hK1, hK2, List.reverse_reverse]

/-! ## Locating the front-matter block in an encoded payload -/

/-- Join metadata lines with single newlines (no trailing newline). -/
def joinLines : List (List Char) → List Char
  | [] => []
  | [l] => l
  | l :: l' :: ls => l ++ '\n' :: joinLines (l' :: ls)

theorem noNl_append {a b : List Char} (ha : ∀ ch ∈ a, ch ≠ '\n')
    (hb : ∀ ch ∈ b, ch ≠ '\n') : ∀ ch ∈ a ++ b, ch ≠ '\n' := by
  intro ch hm
  rcases List.mem_append.mp hm with h | h
  · exact ha ch h
  · exact hb ch h

theorem splitOnSub_close_joinLines :
    ∀ (lines : List (List Char)) (body : List Char), lines ≠ [] →
      (∀ l ∈ lines, ∀ ch ∈ l, ch ≠ '\n') →
      (∀ l ∈ lines.tail, ∃ c t, l = c :: t ∧ c ≠ '-') →
      splitOnSub fmClose (joinLines lines ++ (fmClose ++ body)) =
        some (joinLines lines, body)
  | [], _, hne, _, _ => absurd rfl hne
  | [l], body, _, hnl, _ => by
    have hc : fmClose = '\n' :: ("---\n\n").toList := rfl
    have hskip := splitOnSub_skip '\n' (("---\n\n").toList) l (fmClose ++ body)
      (hnl l (List.mem_cons_self _ _))
    rw [← hc] at hskip
    show splitOnSub fmClose (l ++ (fmClose ++ body)) = some (l, body)
    rw [hskip, splitOnSub_self fmClose body (by decide)]
    simp
  | l :: l' :: ls, body, _, hnl, htl => by
    obtain ⟨c, t, hl', hcne⟩ := htl l' (List.mem_cons_self _ _)
    have hJcons : ∃ w, joinLines (l' :: ls) ++ (fmClose ++ body) = c :: w := by
      cases ls with
      | nil =>
        exact ⟨t ++ (fmClose ++ body), by
          rw [show joinLines [l'] = l' from rfl, hl', List.cons_append]⟩
      | cons l'' ls' =>
        exact ⟨(t ++ '\n' :: joinLines (l'' :: ls')) ++ (fmClose ++ body), by
          rw [show joinLines (l' :: l'' :: ls') = l' ++ '\n' :: joinLines (l'' :: ls') from rfl,
            hl', List.cons_append, List.cons_append]⟩
    obtain ⟨w, hw⟩ := hJcons
    have hnomatch : fmClose.isPrefixOf ('\n' :: (joinLines (l' :: ls) ++ (fmClose ++ body))) = false := by
      rw [hw]
      have hdc : ('-' == c) = false := beq_eq_false_iff_ne.mpr (Ne.symm hcne)
      show (('\n' == '\n') &&
        (('-' == c) && (List.isPrefixOf ('-' :: '-' :: '\n' :: '\n' :: []) w))) = false
      rw [hdc, Bool.false_and, Bool.and_false]
    have hIH := splitOnSub_close_joinLines (l' :: ls) body (List.cons_ne_nil _ _)
      (fun x hx => hnl x (List.mem_cons_of_mem _ hx))
      (fun x hx => htl x (List.mem_cons_of_mem _ hx))
    have hskip := splitOnSub_skip '\n' (("---\n\n").toList) l
      ('\n' :: (joinLines (l' :: ls) ++ (fmClose ++ body)))
      (hnl l (List.mem_cons_self _ _))
    have hc : fmClose = '\n' :: ("---\n\n").toList := rfl
    rw [← hc] at hskip
    have hstep := splitOnSub_cons_neg fmClose '\n'
      (joinLines (l' :: ls) ++ (fmClose ++ body)) hnomatch
    have hshape : joinLines (l :: l' :: ls) ++ (fmClose ++ body) =
        l ++ ('\n' :: (joinLines (l' :: ls) ++ (fmClose ++ body))) := by
      rw [show joinLines (l :: l' :: ls) = l ++ '\n' :: joinLines (l' :: ls) from rfl,
        List.append_assoc, List.cons_append]
    rw [hshape, hskip, hstep, hIH]
    rfl

theorem fmMatch_encode (fm body : List Char)
    (h : splitOnSub fmClose (fm ++ (fmClose ++ body)) = some (fm, body)) :
    fmMatch (fmOpen ++ (fm ++ (fmClose ++ body))) = some (fm, body) := by
  have hpre : fmOpen.isPrefixOf ('-' :: '-' :: '-' :: '\n' :: (fm ++ (fmClose ++ body))) = true :=
    prefixOf_self_append fmOpen (fm ++ (fmClose ++ body))
  show fmMatch ('-' :: '-' :: '-' :: '\n' :: (fm ++ (fmClose ++ body))) = some (fm, body)
  rw [fmMatch, if_pos hpre,
    show ('-' :: '-' :: '-' :: '\n' :: (fm ++ (fmClose ++ body))).drop 4 =
      fm ++ (fmClose ++ body) from rfl, h]

theorem extractField_first (key : List Char) (v z : List Char) (hne : key ≠ [])
    (hv : ∀ ch ∈ v, ch ≠ '\n') :
    extractField key (key ++ (v ++ '\n' :: z)) = some v := by
  simp only [extractField]
  rw [splitOnSub_self key (v ++ '\n' :: z) hne]
  show some ((v ++ '\n' :: z).takeWhile (fun c => c != '\n')) = some v
  rw [takeWhile_line v z hv]

theorem extractField_mid (key : List Char) (x v z : List Char) (hne : key ≠ [])
    (hnl : ∀ ch ∈ key, ch ≠ '\n') (hx : hasSub key x = false)
    (hv : ∀ ch ∈ v, ch ≠ '\n') :
    extractField key (x ++ '\n' :: (key ++ (v ++ '\n' :: z))) = some v := by
  simp only [extractField]
  rw [splitOnSub_key key hne hnl x (key ++ (v ++ '\n' :: z)) hx,
    splitOnSub_self key (v ++ '\n' :: z) hne]
  show some ((v ++ '\n' :: z).takeWhile (fun c => c != '\n')) = some v
  rw [takeWhile_line v z hv]

theorem extractField_last (key : List Char) (x v : List Char) (hne : key ≠ [])
    (hnl : ∀ ch ∈ key, ch ≠ '\n') (hx : hasSub key x = false)
    (hv : ∀ ch ∈ v, ch ≠ '\n') :
    extractField key (x ++ '\n' :: (key ++ v)) = some v := by
  simp only [extractField]
  rw [splitOnSub_key key hne hnl x (key ++ v) hx, splitOnSub_self key v hne]
  show some (v.takeWhile (fun c => c != '\n')) = some v
  rw [takeWhile_all v hv]

theorem extractField_none (key s : List Char) (h : hasSub key s = false) :
    extractField key s = none := by
  simp only [extractField]
  rw [splitOnSub_eq_none key s h]

/-- C1 (amended): round-trip law of the entry codec. For an entry whose
title, createdAt, updatedAt and folderId values are single-line, whose
folderId (when present) is non-empty, whose earlier metadata lines do not
contain a later field's key string, and whose content carries no leading or
trailing whitespace, decoding the encoded payload restores the entry:
title, content, createdAt, updatedAt and folderId are all preserved. -/
theorem decode_encode_roundtrip (e : EntryData) (now : List Char)
    (ht : ∀ ch ∈ e.title, ch ≠ '\n')
    (hc : ∀ ch ∈ e.createdAt, ch ≠ '\n')
    (hu : ∀ ch ∈ e.updatedAt, ch ≠ '\n')
    (hf : match e.folderId with
          | some f => f ≠ [] ∧ ∀ ch ∈ f, ch ≠ '\n'
          | none => True)
    (hkc : hasSub createdAtKey (titleKey ++ e.title) = false)
    (hku : hasSub updatedAtKey
      (titleKey ++ e.title ++ '\n' :: (createdAtKey ++ e.createdAt)) = false)
    (hkf : hasSub folderIdKey
      (titleKey ++ e.title ++ '\n' :: (createdAtKey ++ e.createdAt)
        ++ '\n' :: (updatedAtKey ++ e.updatedAt)) = false)
    (htrim : trimChars e.content = e.content) :
    decodeEntry now (encodeEntry e) = some e := by
  rcases hfe : e.folderId with _ | f
  · -- folderId absent
    have hfm : encodeFrontMatter e =
        joinLines [titleKey ++ e.title, createdAtKey ++ e.createdAt,
          updatedAtKey ++ e.updatedAt] := by
      simp [encodeFrontMatter, hfe, joinLines, List.append_assoc]
    have hlinesNl : ∀ l ∈ [titleKey ++ e.title, createdAtKey ++ e.createdAt,
        updatedAtKey ++ e.updatedAt], ∀ ch ∈ l, ch ≠ '\n' := by
      intro l hl
      simp only [List.mem_cons, List.not_mem_nil, or_false] at hl
      rcases hl with rfl | rfl | rfl
      · exact noNl_append (by decide) ht
      · exact noNl_append (by decide) hc
      · exact noNl_append (by decide) hu
    have htails : ∀ l ∈ ([titleKey ++ e.title, createdAtKey ++ e.createdAt,
        updatedAtKey ++ e.updatedAt] : List (List Char)).tail,
        ∃ ch tl, l = ch :: tl ∧ ch ≠ '-' := by
      intro l hl
      simp only [List.tail_cons, List.mem_cons, List.not_mem_nil, or_false] at hl
      rcases hl with rfl | rfl
      · exact ⟨'c', ("reatedAt: ").toList ++ e.createdAt, rfl, by decide⟩
      · exact ⟨'u', ("pdatedAt: ").toList ++ e.updatedAt, rfl, by decide⟩
    have hclose : splitOnSub fmClose (encodeFrontMatter e ++ (fmClose ++ e.content)) =
        some (encodeFrontMatter e, e.content) := by
      rw [hfm]
      exact splitOnSub_close_joinLines _ e.content (by simp) hlinesNl htails
    have henc : encodeEntry e = fmOpen ++ (encodeFrontMatter e ++ (fmClose ++ e.content)) := by
      simp [encodeEntry, List.append_assoc]
    have hmatch : fmMatch (encodeEntry e) = some (encodeFrontMatter e, e.content) := by
      rw [henc]
      exact fmMatch_encode (encodeFrontMatter e) e.content hclose
    have hT : extractField titleKey (encodeFrontMatter e) = some e.title := by
      rw [hfm, show joinLines [titleKey ++ e.title, createdAtKey ++ e.createdAt,
          updatedAtKey ++ e.updatedAt] =
          titleKey ++ (e.title ++ '\n' :: (createdAtKey ++ (e.createdAt
            ++ '\n' :: (updatedAtKey ++ e.updatedAt)))) from by
        simp [joinLines, List.append_assoc]]
      exact extractField_first titleKey e.title _ (by decide) ht
    have hC : extractField createdAtKey (encodeFrontMatter e) = some e.createdAt := by
      rw [hfm, show joinLines [titleKey ++ e.title, createdAtKey ++ e.createdAt,
          updatedAtKey ++ e.updatedAt] =
          (titleKey ++ e.title) ++ '\n' :: (createdAtKey ++ (e.createdAt
            ++ '\n' :: (updatedAtKey ++ e.updatedAt))) from by
        simp [joinLines, List.append_assoc]]
      exact extractField_mid createdAtKey (titleKey ++ e.title) e.createdAt _
        (by decide) (by decide) hkc hc
    have hU : extractField updatedAtKey (encodeFrontMatter e) = some e.updatedAt := by
      rw [hfm, show joinLines [titleKey ++ e.title, createdAtKey ++ e.createdAt,
          updatedAtKey ++ e.updatedAt] =
          (titleKey ++ e.title ++ '\n' :: (createdAtKey ++ e.createdAt))
            ++ '\n' :: (updatedAtKey ++ e.updatedAt) from by
        simp [joinLines, List.append_assoc]]
      exact extractField_last updatedAtKey _ e.updatedAt (by decide) (by decide) hku hu
    have hF : extractField folderIdKey (encodeFrontMatter e) = none := by
      rw [hfm]
      apply extractField_none
      rw [show joinLines [titleKey ++ e.title, createdAtKey ++ e.createdAt,
          updatedAtKey ++ e.updatedAt] =
          titleKey ++ e.title ++ '\n' :: (createdAtKey ++ e.createdAt)
            ++ '\n' :: (updatedAtKey ++ e.updatedAt) from by
        simp [joinLines, List.append_assoc]]
      exact hkf
    show decodeEntry now (encodeEntry e) = some e
    simp only [decodeEntry]
    rw [hmatch]
    simp only [hT, hC, hU, hF, Option.getD_some]
    rw [htrim, ← hfe]
  · -- folderId present
    have hfp : (match e.folderId with
        | some f => f ≠ [] ∧ ∀ ch ∈ f, ch ≠ '\n'
        | none => True) = (f ≠ [] ∧ ∀ ch ∈ f, ch ≠ '\n') := by rw [hfe]
    rw [hfp] at hf
    obtain ⟨hfne, hfnl⟩ := hf
    have hfm : encodeFrontMatter e =
        joinLines [titleKey ++ e.title, createdAtKey ++ e.createdAt,
          updatedAtKey ++ e.updatedAt, folderIdKey ++ f] := by
      simp [encodeFrontMatter, hfe, hfne, joinLines, List.append_assoc]
    have hlinesNl : ∀ l ∈ [titleKey ++ e.title, createdAtKey ++ e.createdAt,
        updatedAtKey ++ e.updatedAt, folderIdKey ++ f], ∀ ch ∈ l, ch ≠ '\n' := by
      intro l hl
      simp only [List.mem_cons, List.not_mem_nil, or_false] at hl
      rcases hl with rfl | rfl | rfl | rfl
      · exact noNl_append (by decide) ht
      · exact noNl_append (by decide) hc
      · exact noNl_append (by decide) hu
      · exact noNl_append (by decide) hfnl
    have htails : ∀ l ∈ ([titleKey ++ e.title, createdAtKey ++ e.createdAt,
        updatedAtKey ++ e.updatedAt, folderIdKey ++ f] : List (List Char)).tail,
        ∃ ch tl, l = ch :: tl ∧ ch ≠ '-' := by
      intro l hl
      simp only [List.tail_cons, List.mem_cons, List.not_mem_nil, or_false] at hl
      rcases hl with rfl | rfl | rfl
      · exact ⟨'c', ("reatedAt: ").toList ++ e.createdAt, rfl, by decide⟩
      · exact ⟨'u', ("pdatedAt: ").toList ++ e.updatedAt, rfl, by decide⟩
      · exact ⟨'f', ("olderId: ").toList ++ f, rfl, by decide⟩
    have hclose : splitOnSub fmClose (encodeFrontMatter e ++ (fmClose ++ e.content)) =
        some (encodeFrontMatter e, e.content) := by
      rw [hfm]
      exact splitOnSub_close_joinLines _ e.content (by simp) hlinesNl htails
    have henc : encodeEntry e = fmOpen ++ (encodeFrontMatter e ++ (fmClose ++ e.content)) := by
      simp [encodeEntry, List.append_assoc]
    have hmatch : fmMatch (encodeEntry e) = some (encodeFrontMatter e, e.content) := by
      rw [henc]
      exact fmMatch_encode (encodeFrontMatter e) e.content hclose
    have hT : extractField titleKey (encodeFrontMatter e) = some e.title := by
      rw [hfm, show joinLines [titleKey ++ e.title, createdAtKey ++ e.createdAt,
          updatedAtKey ++ e.updatedAt, folderIdKey ++ f] =
          titleKey ++ (e.title ++ '\n' :: (createdAtKey ++ (e.createdAt
            ++ '\n' :: (updatedAtKey ++ (e.updatedAt
              ++ '\n' :: (folderIdKey ++ f)))))) from by
        simp [joinLines, List.append_assoc]]
      exact extractField_first titleKey e.title _ (by decide) ht
    have hC : extractField createdAtKey (encodeFrontMatter e) = some e.createdAt := by
      rw [hfm, show joinLines [titleKey ++ e.title, createdAtKey ++ e.createdAt,
          updatedAtKey ++ e.updatedAt, folderIdKey ++ f] =
          (titleKey ++ e.title) ++ '\n' :: (createdAtKey ++ (e.createdAt
            ++ '\n' :: (updatedAtKey ++ (e.updatedAt
              ++ '\n' :: (folderIdKey ++ f))))) from by
        simp [joinLines, List.append_assoc]]
      exact extractField_mid createdAtKey (titleKey ++ e.title) e.createdAt _
        (by decide) (by decide) hkc hc
    have hU : extractField updatedAtKey (encodeFrontMatter e) = some e.updatedAt := by
      rw [hfm, show joinLines [titleKey ++ e.title, createdAtKey ++ e.createdAt,
          updatedAtKey ++ e.updatedAt, folderIdKey ++ f] =
          (titleKey ++ e.title ++ '\n' :: (createdAtKey ++ e.createdAt))
            ++ '\n' :: (updatedAtKey ++ (e.updatedAt
              ++ '\n' :: (folderIdKey ++ f))) from by
        simp [joinLines, List.append_assoc]]
      exact extractField_mid updatedAtKey _ e.updatedAt _ (by decide) (by decide) hku hu
    have hF : extractField folderIdKey (encodeFrontMatter e) = some f := by
      rw [hfm, show joinLines [titleKey ++ e.title, createdAtKey ++ e.createdAt,
          updatedAtKey ++ e.updatedAt, folderIdKey ++ f] =
          (titleKey ++ e.title ++ '\n' :: (createdAtKey ++ e.createdAt)
            ++ '\n' :: (updatedAtKey ++ e.updatedAt))
            ++ '\n' :: (folderIdKey ++ f) from by
        simp [joinLines, List.append_assoc]]
      exact extractField_last folderIdKey _ f (by decide) (by decide) hkf hfnl
    show decodeEntry now (encodeEntry e) = some e
    simp only [decodeEntry]
    rw [hmatch]
    simp only [hT, hC, hU, hF, Option.getD_some]
    rw [htrim, ← hfe]

/-- An entry whose content carries leading whitespace. -/
def wsEntry : EntryData :=
  { title := ("t").toList, createdAt := ("c").toList, updatedAt := ("u").toList,
    folderId := none, content := (" x").toList }

/-- What the decoder actually returns for `wsEntry`'s payload: the body
comes back trimmed. -/
def wsDecoded : EntryData :=
  { title := ("t").toList, createdAt := ("c").toList, updatedAt := ("u").toList,
    folderId := none, content := ("x").toList }

/-- C1 counterexample: an entry whose title and content contain no line equal
to the delimiter `---`, yet decoding its encoded payload does not restore it:
the decoder trims the body, so the leading space of the content is lost. -/
theorem decode_encode_not_roundtrip :
    hasDelimiterLine wsEntry.title = false ∧
    hasDelimiterLine wsEntry.content = false ∧
    decodeEntry (("now").toList) (encodeEntry wsEntry) ≠ some wsEntry := by decide

/-- A concrete entry satisfying the amended round-trip side conditions. -/
def rtEntry : EntryData :=
  { title := ("Hello").toList, createdAt := ("2024-01-01").toList,
    updatedAt := ("2024-01-02").toList, folderId := some (("f1").toList),
    content := ("body text").toList }

/-- Witness: the amended round-trip law at the concrete entry `rtEntry`. -/
theorem decode_encode_roundtrip_witness :
    decodeEntry (("now").toList) (encodeEntry rtEntry) = some rtEntry :=
  decode_encode_roundtrip rtEntry (("now").toList) (by decide) (by decide)
    (by decide) (by exact ⟨by decide, by decide⟩) (by decide) (by decide)
    (by decide) (by decide)

/-- C10: the decoder always trims the body: every entry produced by the
payload decoder (`getJournalEntryById` / `getAllJournalEntries`) has a
content field that is invariant under a further trim, i.e. carries no
leading or trailing whitespace. -/
theorem decode_content_trimmed (now s : List Char) (e : EntryData)
    (h : decodeEntry now s = some e) : trimChars e.content = e.content := by
  cases hm : fmMatch s with
  | none =>
    simp only [decodeEntry, hm] at h
    exact Option.noConfusion h
  | some r =>
    obtain ⟨fm, body⟩ := r
    simp only [decodeEntry, hm] at h
    injection h with h'
    rw [← h']
    exact trimChars_idem body

/-- Witness: C10 at the concrete payload of `wsEntry`, whose decoded content
is the trimmed body. -/
theorem decode_content_trimmed_witness :
    trimChars wsDecoded.content = wsDecoded.content :=
  decode_content_trimmed (("now").toList) (encodeEntry wsEntry) wsDecoded (by decide)

/-! ## Folder cycle: the path walk never terminates -/

/-- Folder `a`, whose parent is `b`. -/
def folderA : Folder :=
  { id := "a", name := "A", description := none, createdAt := "t0",
    updatedAt := "t0", parentId := some "b", color := none }

/-- Folder `b`, whose parent is `a` — a two-folder `parentId` cycle. -/
def folderB : Folder :=
  { id := "b", name := "B", description := none, createdAt := "t0",
    updatedAt := "t0", parentId := some "a", color := none }

/-- A folder collection with a cyclic parent chain. -/
def cyclicFolders : List Folder := [folderA, folderB]

theorem getFolderPathLoop_cyclic : ∀ (fuel : Nat) (cur : Option Folder) (path : List Folder),
    cur = some folderA ∨ cur = some folderB →
    getFolderPathLoop cyclicFolders cur path fuel = none := by
  intro fuel
  induction fuel with
  | zero =>
    intro cur path h
    rcases h with rfl | rfl <;> rfl
  | succ n ih =>
    intro cur path h
    rcases h with rfl | rfl
    · have h1 : getFolderPathLoop cyclicFolders (some folderA) path (n + 1) =
          getFolderPathLoop cyclicFolders (some folderB) (folderA :: path) n := rfl
      rw [h1]
      exact ih _ _ (Or.inr rfl)
    · have h1 : getFolderPathLoop cyclicFolders (some folderB) path (n + 1) =
          getFolderPathLoop cyclicFolders (some folderA) (folderB :: path) n := rfl
      rw [h1]
      exact ih _ _ (Or.inl rfl)

/-- C2: the source `getFolderPath` has no cycle detection: on the two-folder
cycle `a ↔ b` the while-loop never finishes — for every amount of fuel the
walk is still running (and no `CycleDetected` condition exists anywhere in
the code), so the claim's required termination-with-`CycleDetected` fails. -/
theorem getFolderPath_cycle_diverges (fuel : Nat) :
    getFolderPath cyclicFolders "a" fuel = none := by
  show getFolderPathLoop cyclicFolders (getFolderById cyclicFolders "a") [] fuel = none
  have h : getFolderById cyclicFolders "a" = some folderA := by decide
  rw [h]
  exact getFolderPathLoop_cyclic fuel _ _ (Or.inl rfl)

/-! ## Provisioning: the 422 conflict is swallowed, the retry is dead code -/

/-- The environment of the claimed scenario: the derived repository name is
absent from the listing, direct access fails, and every creation attempt
fails with 422 "name already exists" (the repository exists but is not
accessible to this identity). -/
def conflictEnv : ProvEnv :=
  { listedRepos := some [], repoGetOk := fun _ => false,
    createResult := fun _ => CreateResult.httpError 422 true,
    timestamp := "1700000000000" }

/-- The service state after `initialize("alice")`. -/
def initState : ProvState :=
  { repoName := "privacy-journal-entries-alice", githubAvailable := true }

/-- C3: on a 422 "already exists" creation failure, `createRepo` swallows the
error (setting `githubAvailable := false`) and returns normally, so
`ensureRepoExists` reports success after exactly one creation attempt, with
the repository name unchanged — the timestamp-rename retry branch never
runs, and the caller's `this.githubAvailable = await ensureRepoExists()`
then flips availability back to true for an inaccessible repository. -/
theorem ensureRepoExists_conflict_swallowed :
    ensureRepoExists conflictEnv "alice" initState =
      { result := true,
        state := { repoName := "privacy-journal-entries-alice",
                   githubAvailable := false },
        createCalls := 1 } := rfl

/-! ## Rebuild lemmas -/

theorem dbLookup_insert_same {V : Type} (db : VDB V) (k : String) (v : V)
    (h : dbLookup db k = none) : dbLookup (dbInsert db k v) k = some v := by
  have hf : List.find? (fun p => p.1 == k) db = none := Option.map_eq_none'.mp h
  show Option.map (fun p => p.2) (List.find? (fun p => p.1 == k) (db ++ [(k, v)])) = some v
  rw [List.find?_append, hf, Option.none_or, List.find?_cons_of_pos _ (by simp)]
  rfl

theorem dbLookup_insert_other {V : Type} (db : VDB V) (k k' : String) (v : V)
    (hne : k' ≠ k) : dbLookup (dbInsert db k v) k' = dbLookup db k' := by
  show Option.map (fun p => p.2) (List.find? (fun p => p.1 == k') (db ++ [(k, v)])) = dbLookup db k'
  have h1 : List.find? (fun p => p.1 == k') [(k, v)] = none := by
    rw [List.find?_cons_of_neg _ (by simp only [beq_iff_eq]; exact Ne.symm hne)]
    rfl
  rw [List.find?_append, h1, Option.or_none]
  rfl

theorem dbLookup_insert_preserved {V : Type} (db : VDB V) (k k' : String)
    (v v' : V) (h : dbLookup db k = some v) :
    dbLookup (dbInsert db k' v') k = some v := by
  obtain ⟨q, hfq, hqv⟩ := Option.map_eq_some'.mp h
  show Option.map (fun p => p.2) (List.find? (fun p => p.1 == k) (db ++ [(k', v')])) = some v
  rw [List.find?_append, hfq]
  show some q.2 = some v
  rw [hqv]

theorem rebuildLoop_preserves {V : Type} (embed : String → Option V) (total : Nat) :
    ∀ (entries : List REntry) (db : VDB V) (p er ec : Nat) (log : List (Nat × Nat))
      (k : String) (v : V), dbLookup db k = some v →
      dbLookup (rebuildLoop embed total entries db p er ec log).db k = some v
  | [], _, _, _, _, _, _, _, h => h
  | e :: rest, db, p, er, ec, log, k, v, h => by
    rw [rebuildLoop]
    rcases hl : dbLookup db e.id with _ | w
    · rcases he : embed (entryText e) with _ | w'
      · exact rebuildLoop_preserves embed total rest db _ _ _ _ k v h
      · exact rebuildLoop_preserves embed total rest _ _ _ _ _ k v
          (dbLookup_insert_preserved db k e.id v w' h)
    · exact rebuildLoop_preserves embed total rest db _ _ _ _ k v h

theorem rebuildLoop_errors_le {V : Type} (embed : String → Option V) (total : Nat) :
    ∀ (entries : List REntry) (db : VDB V) (p er ec : Nat) (log : List (Nat × Nat)),
      er ≤ (rebuildLoop embed total entries db p er ec log).errors
  | [], _, _, _, _, _ => Nat.le_refl _
  | e :: rest, db, p, er, ec, log => by
    rw [rebuildLoop]
    rcases hl : dbLookup db e.id with _ | w
    · rcases he : embed (entryText e) with _ | w'
      · exact Nat.le_trans (Nat.le_succ er) (rebuildLoop_errors_le embed total rest db _ _ _ _)
      · exact rebuildLoop_errors_le embed total rest _ _ _ _ _
    · exact rebuildLoop_errors_le embed total rest db _ _ _ _

theorem rebuildLoop_all_present {V : Type} (embed : String → Option V) (total : Nat) :
    ∀ (entries : List REntry) (db : VDB V) (p er ec : Nat) (log : List (Nat × Nat)),
      (rebuildLoop embed total entries db p er ec log).errors = er →
      ∀ e ∈ entries, ∃ v, dbLookup (rebuildLoop embed total entries db p er ec log).db e.id = some v
  | [], _, _, _, _, _, _, _, he => absurd he (List.not_mem_nil _)
  | e0 :: rest, db, p, er, ec, log, herr, e, he => by
    rcases hl : dbLookup db e0.id with _ | w
    · rcases hemb : embed (entryText e0) with _ | v'
      · rw [rebuildLoop, hl, hemb] at herr ⊢
        exfalso
        have herr' : (rebuildLoop embed total rest db (p + 1) (er + 1) (ec + 1)
            (log ++ [(p + 1, total)])).errors = er := herr
        have hle := rebuildLoop_errors_le embed total rest db (p + 1) (er + 1) (ec + 1)
          (log ++ [(p + 1, total)])
        omega
      · rw [rebuildLoop, hl, hemb] at herr ⊢
        have herr' : (rebuildLoop embed total rest (dbInsert db e0.id v') (p + 1) er (ec + 1)
            (log ++ [(p + 1, total)])).errors = er := herr
        show ∃ v, dbLookup (rebuildLoop embed total rest (dbInsert db e0.id v') (p + 1) er
            (ec + 1) (log ++ [(p + 1, total)])).db e.id = some v
        rcases List.mem_cons.mp he with rfl | hrest
        · exact ⟨v', rebuildLoop_preserves embed total rest _ _ _ _ _ _ _
            (dbLookup_insert_same db e.id v' hl)⟩
        · exact rebuildLoop_all_present embed total rest _ _ _ _ _ herr' e hrest
    · rw [rebuildLoop, hl] at herr ⊢
      have herr' : (rebuildLoop embed total rest db (p + 1) er ec
          (log ++ [(p + 1, total)])).errors = er := herr
      show ∃ v, dbLookup (rebuildLoop embed total rest db (p + 1) er ec
          (log ++ [(p + 1, total)])).db e.id = some v
      rcases List.mem_cons.mp he with rfl | hrest
      · exact ⟨w, rebuildLoop_preserves embed total rest db _ _ _ _ _ _ hl⟩
      · exact rebuildLoop_all_present embed total rest db _ _ _ _ herr' e hrest

theorem rebuildLoop_present_no_calls {V : Type} (embed : String → Option V) (total : Nat) :
    ∀ (entries : List REntry) (db : VDB V) (p er ec : Nat) (log : List (Nat × Nat)),
      (∀ e ∈ entries, ∃ v, dbLookup db e.id = some v) →
      (rebuildLoop embed total entries db p er ec log).embedCalls = ec
  | [], _, _, _, _, _, _ => rfl
  | e0 :: rest, db, p, er, ec, log, h => by
    obtain ⟨v, hv⟩ := h e0 (List.mem_cons_self _ _)
    rw [rebuildLoop, hv]
    exact rebuildLoop_present_no_calls embed total rest db _ _ _ _
      (fun e he => h e (List.mem_cons_of_mem _ he))

/-! ## Rebuild: claims about idempotence, frame preservation, partial failure -/

/-- An embedding provider that always fails. -/
def failAllEmbed : String → Option Nat := fun _ => none

/-- An embedding provider that always succeeds. -/
def okEmbed : String → Option Nat := fun _ => some 0

/-- A one-entry corpus. -/
def oneEntry : List REntry := [{ id := "e1", title := "t", content := "c" }]

/-- C4 counterexample: with an empty starting index and a provider that fails,
the first rebuild indexes nothing, so a second rebuild with no intervening
writes still performs an embedding call — the second run is not free of
embedding calls for every entry collection and starting index. -/
theorem rebuild_twice_calls_again :
    (rebuildVectorIndex failAllEmbed oneEntry
      (rebuildVectorIndex failAllEmbed oneEntry []).db).embedCalls ≠ 0 := by decide

/-- C4 (amended): when the first rebuild reports zero errors, every entry is
present in the resulting index, so a second rebuild over the same entries
with no intervening writes performs zero embedding-provider calls. -/
theorem rebuild_twice_zero_calls {V : Type} (embed : String → Option V)
    (entries : List REntry) (existingDb : VDB V)
    (h : (rebuildVectorIndex embed entries existingDb).errors = 0) :
    (rebuildVectorIndex embed entries
      (rebuildVectorIndex embed entries existingDb).db).embedCalls = 0 := by
  have h' : (rebuildLoop embed entries.length entries existingDb 0 0 0 []).errors = 0 := h
  have hall := rebuildLoop_all_present embed entries.length entries existingDb 0 0 0 [] h'
  exact rebuildLoop_present_no_calls embed entries.length entries
    (rebuildLoop embed entries.length entries existingDb 0 0 0 []).db 0 0 0 [] hall

/-- Witness: the amended C4 at a concrete run whose first pass succeeds. -/
theorem rebuild_twice_zero_calls_witness :
    (rebuildVectorIndex okEmbed oneEntry
      (rebuildVectorIndex okEmbed oneEntry []).db).embedCalls = 0 :=
  rebuild_twice_zero_calls okEmbed oneEntry [] (by decide)

/-- C9: rebuild never removes or overwrites an existing index record: any
id→embedding mapping present before the rebuild is present unchanged after
it (the rebuild starts from a copy of the existing map and only adds
missing ids), including mappings whose entries are gone from the corpus. -/
theorem rebuild_preserves_existing {V : Type} (embed : String → Option V)
    (entries : List REntry) (existingDb : VDB V) (k : String) (v : V)
    (h : dbLookup existingDb k = some v) :
    dbLookup (rebuildVectorIndex embed entries existingDb).db k = some v :=
  rebuildLoop_preserves embed entries.length entries existingDb 0 0 0 [] k v h

/-- Witness: C9 at a concrete index holding an id absent from the corpus. -/
theorem rebuild_preserves_existing_witness :
    dbLookup (rebuildVectorIndex failAllEmbed oneEntry [("deleted", 7)]).db "deleted" = some 7 :=
  rebuild_preserves_existing failAllEmbed oneEntry [("deleted", 7)] "deleted" 7 (by decide)

/-! ## Rebuild over a fresh corpus: full characterisation -/

theorem rebuildLoop_fresh {V : Type} (embed : String → Option V) (total : Nat) :
    ∀ (entries : List REntry) (db : VDB V) (p er ec : Nat) (log : List (Nat × Nat)),
      (∀ e ∈ entries, dbLookup db e.id = none) →
      ((entries.map (fun e => e.id)).Nodup) →
      (rebuildLoop embed total entries db p er ec log).processed = p + entries.length ∧
      (rebuildLoop embed total entries db p er ec log).errors =
        er + entries.countP (fun e => (embed (entryText e)).isNone) ∧
      (rebuildLoop embed total entries db p er ec log).embedCalls = ec + entries.length ∧
      (rebuildLoop embed total entries db p er ec log).progress =
        log ++ progressFrom p total entries.length
  | [], db, p, er, ec, log, _, _ => by
    refine ⟨rfl, by simp [rebuildLoop], rfl, by simp [rebuildLoop, progressFrom]⟩
  | e0 :: rest, db, p, er, ec, log, habs, hnd => by
    have hl : dbLookup db e0.id = none := habs e0 (List.mem_cons_self _ _)
    have hnd' : ((rest.map (fun e => e.id)).Nodup) := by
      simp only [List.map_cons, List.nodup_cons] at hnd
      exact hnd.2
    have hnotin : e0.id ∉ rest.map (fun e => e.id) := by
      simp only [List.map_cons, List.nodup_cons] at hnd
      exact hnd.1
    rw [rebuildLoop, hl]
    rcases hemb : embed (entryText e0) with _ | v'
    · have habs' : ∀ e ∈ rest, dbLookup db e.id = none :=
        fun e he => habs e (List.mem_cons_of_mem _ he)
      obtain ⟨h1, h2, h3, h4⟩ := rebuildLoop_fresh embed total rest db (p + 1) (er + 1)
        (ec + 1) (log ++ [(p + 1, total)]) habs' hnd'
      refine ⟨by rw [h1, List.length_cons]; omega, ?_,
        by rw [h3, List.length_cons]; omega, ?_⟩
      · rw [h2, List.countP_cons]
        simp [hemb]
        omega
      · rw [h4, List.length_cons, progressFrom]
        simp [List.append_assoc]
    · have habs' : ∀ e ∈ rest, dbLookup (dbInsert db e0.id v') e.id = none := by
        intro e he
        have hne : e.id ≠ e0.id := by
          intro hcon
          exact hnotin (hcon ▸ List.mem_map_of_mem (fun e => e.id) he)
        rw [dbLookup_insert_other db e0.id e.id v' hne]
        exact habs e (List.mem_cons_of_mem _ he)
      obtain ⟨h1, h2, h3, h4⟩ := rebuildLoop_fresh embed total rest (dbInsert db e0.id v')
        (p + 1) er (ec + 1) (log ++ [(p + 1, total)]) habs' hnd'
      refine ⟨by rw [h1, List.length_cons]; omega, ?_,
        by rw [h3, List.length_cons]; omega, ?_⟩
      · rw [h2, List.countP_cons]
        simp [hemb]
      · rw [h4, List.length_cons, progressFrom]
        simp [List.append_assoc]

theorem rebuildLoop_fresh_present {V : Type} (embed : String → Option V) (total : Nat) :
    ∀ (entries : List REntry) (db : VDB V) (p er ec : Nat) (log : List (Nat × Nat)),
      (∀ e ∈ entries, dbLookup db e.id = none) →
      ((entries.map (fun e => e.id)).Nodup) →
      ∀ e ∈ entries, (embed (entryText e)).isSome = true →
        ∃ v, dbLookup (rebuildLoop embed total entries db p er ec log).db e.id = some v
  | [], _, _, _, _, _, _, _, _, he, _ => absurd he (List.not_mem_nil _)
  | e0 :: rest, db, p, er, ec, log, habs, hnd, e, he, hsome => by
    have hl : dbLookup db e0.id = none := habs e0 (List.mem_cons_self _ _)
    have hnd' : ((rest.map (fun e => e.id)).Nodup) := by
      simp only [List.map_cons, List.nodup_cons] at hnd
      exact hnd.2
    have hnotin : e0.id ∉ rest.map (fun e => e.id) := by
      simp only [List.map_cons, List.nodup_cons] at hnd
      exact hnd.1
    rw [rebuildLoop, hl]
    rcases hemb : embed (entryText e0) with _ | v'
    · have habs' : ∀ x ∈ rest, dbLookup db x.id = none :=
        fun x hx => habs x (List.mem_cons_of_mem _ hx)
      rcases List.mem_cons.mp he with rfl | hrest
      · rw [hemb] at hsome
        exact absurd hsome (by simp)
      · exact rebuildLoop_fresh_present embed total rest db _ _ _ _ habs' hnd' e hrest hsome
    · have habs' : ∀ x ∈ rest, dbLookup (dbInsert db e0.id v') x.id = none := by
        intro x hx
        have hne : x.id ≠ e0.id := by
          intro hcon
          exact hnotin (hcon ▸ List.mem_map_of_mem (fun e => e.id) hx)
        rw [dbLookup_insert_other db e0.id x.id v' hne]
        exact habs x (List.mem_cons_of_mem _ hx)
      rcases List.mem_cons.mp he with rfl | hrest
      · exact ⟨v', rebuildLoop_preserves embed total rest _ _ _ _ _ _ _
          (dbLookup_insert_same db e.id v' hl)⟩
      · exact rebuildLoop_fresh_present embed total rest _ _ _ _ _ habs' hnd' e hrest hsome

/-- C5: partial-failure tolerance of `rebuildVectorIndex`. Over entries none
of which is already indexed (distinct ids), with the embedding provider
failing for exactly one entry, the rebuild completes without aborting:
it returns processed = n and errors = 1, every successfully embedded entry
is present in the resulting index, progress is reported after every entry
as (processed so far, total), and the index is persisted exactly once, at
the end. -/
theorem rebuild_partial_failure {V : Type} (embed : String → Option V)
    (entries : List REntry) (existingDb : VDB V)
    (habs : ∀ e ∈ entries, dbLookup existingDb e.id = none)
    (hnodup : (entries.map (fun e => e.id)).Nodup)
    (hone : entries.countP (fun e => (embed (entryText e)).isNone) = 1) :
    (rebuildVectorIndex embed entries existingDb).processed = entries.length ∧
    (rebuildVectorIndex embed entries existingDb).errors = 1 ∧
    (∀ e ∈ entries, (embed (entryText e)).isSome = true →
      ∃ v, dbLookup (rebuildVectorIndex embed entries existingDb).db e.id = some v) ∧
    (rebuildVectorIndex embed entries existingDb).progress =
      progressFrom 0 entries.length entries.length ∧
    (rebuildVectorIndex embed entries existingDb).saved =
      [(rebuildVectorIndex embed entries existingDb).db] := by
  obtain ⟨h1, h2, h3, h4⟩ := rebuildLoop_fresh embed entries.length entries existingDb
    0 0 0 [] habs hnodup
  refine ⟨?_, ?_, ?_, ?_, rfl⟩
  · show (rebuildLoop embed entries.length entries existingDb 0 0 0 []).processed = entries.length
    rw [h1]
    omega
  · show (rebuildLoop embed entries.length entries existingDb 0 0 0 []).errors = 1
    rw [h2, hone]
  · intro e he hsome
    exact rebuildLoop_fresh_present embed entries.length entries existingDb 0 0 0 []
      habs hnodup e he hsome
  · show (rebuildLoop embed entries.length entries existingDb 0 0 0 []).progress =
      progressFrom 0 entries.length entries.length
    rw [h4, List.nil_append]

/-- Three entries with distinct ids and distinct embedded texts. -/
def threeEntries : List REntry :=
  [{ id := "e1", title := "a", content := "" },
   { id := "e2", title := "b", content := "" },
   { id := "e3", title := "c", content := "" }]

/-- A provider that fails exactly on the second entry's text. -/
def failSecondEmbed : String → Option Nat :=
  fun s => if s = "b\n\n" then none else some 0

/-- Witness: C5 at a concrete three-entry rebuild with one failing embed. -/
theorem rebuild_partial_failure_witness :
    (rebuildVectorIndex failSecondEmbed threeEntries []).processed = threeEntries.length ∧
    (rebuildVectorIndex failSecondEmbed threeEntries []).errors = 1 ∧
    (∀ e ∈ threeEntries, (failSecondEmbed (entryText e)).isSome = true →
      ∃ v, dbLookup (rebuildVectorIndex failSecondEmbed threeEntries []).db e.id = some v) ∧
    (rebuildVectorIndex failSecondEmbed threeEntries []).progress =
      progressFrom 0 threeEntries.length threeEntries.length ∧
    (rebuildVectorIndex failSecondEmbed threeEntries []).saved =
      [(rebuildVectorIndex failSecondEmbed threeEntries []).db] :=
  rebuild_partial_failure failSecondEmbed threeEntries []
    (by decide) (by decide) (by decide)

/-! ## Entry update -/

/-- C8: `updateJournalEntry` returns null when no entry with the id exists;
when it exists, the returned entry keeps the same id and the stored
`createdAt`, takes the refreshed `updatedAt`, and carries the new title and
content. -/
theorem updateJournalEntry_spec (entries : List JEntry) (id title content : String)
    (folderId : Option String) (now : String) :
    ((∀ e ∈ entries, e.id ≠ id) →
      updateJournalEntry entries id title content folderId now = none) ∧
    (∀ e0, entries.find? (fun e => e.id == id) = some e0 →
      updateJournalEntry entries id title content folderId now =
        some { id := id, title := title, content := content,
               createdAt := e0.createdAt, updatedAt := now, folderId := folderId }) := by
  constructor
  · intro h
    unfold updateJournalEntry
    rw [List.find?_eq_none.mpr (fun e he => by
      simp only [beq_iff_eq]
      exact h e he)]
  · intro e0 h
    unfold updateJournalEntry
    rw [h]

/-- A concrete stored entry. -/
def storeEntry : JEntry :=
  { id := "a", title := "A", content := "hello",
    createdAt := "t0", updatedAt := "t0", folderId := none }

/-- Witness: C8 at a one-entry store for both a missing and a present id. -/
theorem updateJournalEntry_spec_witness :
    updateJournalEntry [storeEntry] "missing" "T" "C" none "t1" = none ∧
    updateJournalEntry [storeEntry] "a" "A2" "world" none "t1" =
      some { id := "a", title := "A2", content := "world",
             createdAt := "t0", updatedAt := "t1", folderId := none } :=
  ⟨(updateJournalEntry_spec [storeEntry] "missing" "T" "C" none "t1").1 (by decide),
   (updateJournalEntry_spec [storeEntry] "a" "A2" "world" none "t1").2 storeEntry (by decide)⟩

/-! ## Cosine similarity bounds -/

theorem sumsq_nonneg (l : List ℝ) : 0 ≤ (l.map (fun x => x * x)).sum := by
  apply List.sum_nonneg
  intro x hx
  obtain ⟨y, _, rfl⟩ := List.mem_map.mp hx
  exact mul_self_nonneg y

theorem two_mul_dot_le (a b d A B : ℝ) (hA : 0 ≤ A) (hB : 0 ≤ B)
    (hd : d ^ 2 ≤ A * B) : 2 * (a * b * d) ≤ a * a * B + A * (b * b) := by
  rcases le_or_lt (a * b * d) 0 with hneg | hpos
  · have h1 : 0 ≤ a * a * B := mul_nonneg (mul_self_nonneg a) hB
    have h2 : 0 ≤ A * (b * b) := mul_nonneg hA (mul_self_nonneg b)
    linarith
  · have hy : 0 ≤ a * a * B + A * (b * b) := by
      have h1 : 0 ≤ a * a * B := mul_nonneg (mul_self_nonneg a) hB
      have h2 : 0 ≤ A * (b * b) := mul_nonneg hA (mul_self_nonneg b)
      linarith
    have hsq : (2 * (a * b * d)) ^ 2 ≤ (a * a * B + A * (b * b)) ^ 2 := by
      nlinarith [sq_nonneg (a * a * B - A * (b * b)),
        mul_nonneg (sub_nonneg.mpr hd) (sq_nonneg (a * b))]
    nlinarith [hsq, hy, hpos]

theorem listDot_sq_le : ∀ (a b : List ℝ),
    ((List.zipWith (fun x y => x * y) a b).sum) ^ 2 ≤
      ((a.map (fun x => x * x)).sum) * ((b.map (fun x => x * x)).sum)
  | [], b => by
    simp
  | a :: as, [] => by
    have h1 := sumsq_nonneg (a :: as)
    simp
  | a :: as, b :: bs => by
    have ih := listDot_sq_le as bs
    have hA := sumsq_nonneg as
    have hB := sumsq_nonneg bs
    have hkey := two_mul_dot_le a b ((List.zipWith (fun x y => x * y) as bs).sum)
      ((as.map (fun x => x * x)).sum) ((bs.map (fun x => x * x)).sum) hA hB ih
    simp only [List.zipWith_cons_cons, List.map_cons, List.sum_cons]
    nlinarith [ih, hkey]

/-- C7: cosineSimilarity lies in [-1, 1] for non-zero vectors of equal
length, and equals 0 when either vector is the zero vector (zero
magnitude). -/
theorem cosineSimilarity_bounds (a b : List ℝ) (hlen : a.length = b.length) :
    ((∃ x ∈ a, x ≠ 0) → (∃ y ∈ b, y ≠ 0) →
      -1 ≤ cosineSimilarity a b ∧ cosineSimilarity a b ≤ 1) ∧
    (((∀ x ∈ a, x = 0) ∨ (∀ y ∈ b, y = 0)) → cosineSimilarity a b = 0) := by
  constructor
  · rintro ⟨x, hx, hxne⟩ ⟨y, hy, hyne⟩
    have hApos : 0 < (a.map (fun x => x * x)).sum := by
      have hmem : x * x ∈ a.map (fun x => x * x) := List.mem_map_of_mem _ hx
      have hle := List.single_le_sum (fun z hz => by
        obtain ⟨w, _, rfl⟩ := List.mem_map.mp hz
        exact mul_self_nonneg w) _ hmem
      have hxx : 0 < x * x := mul_self_pos.mpr hxne
      linarith
    have hBpos : 0 < (b.map (fun x => x * x)).sum := by
      have hmem : y * y ∈ b.map (fun x => x * x) := List.mem_map_of_mem _ hy
      have hle := List.single_le_sum (fun z hz => by
        obtain ⟨w, _, rfl⟩ := List.mem_map.mp hz
        exact mul_self_nonneg w) _ hmem
      have hyy : 0 < y * y := mul_self_pos.mpr hyne
      linarith
    have hmagA : 0 < Real.sqrt ((a.map (fun x => x * x)).sum) := Real.sqrt_pos.mpr hApos
    have hmagB : 0 < Real.sqrt ((b.map (fun x => x * x)).sum) := Real.sqrt_pos.mpr hBpos
    have hM : 0 < Real.sqrt ((a.map (fun x => x * x)).sum) *
        Real.sqrt ((b.map (fun x => x * x)).sum) := mul_pos hmagA hmagB
    have hM2 : (Real.sqrt ((a.map (fun x => x * x)).sum) *
        Real.sqrt ((b.map (fun x => x * x)).sum)) ^ 2 =
        ((a.map (fun x => x * x)).sum) * ((b.map (fun x => x * x)).sum) := by
      rw [mul_pow, Real.sq_sqrt (le_of_lt hApos), Real.sq_sqrt (le_of_lt hBpos)]
    have hcs := listDot_sq_le a b
    have habs : -(Real.sqrt ((a.map (fun x => x * x)).sum) *
          Real.sqrt ((b.map (fun x => x * x)).sum)) ≤
        (List.zipWith (fun x y => x * y) a b).sum ∧
        (List.zipWith (fun x y => x * y) a b).sum ≤
          Real.sqrt ((a.map (fun x => x * x)).sum) *
            Real.sqrt ((b.map (fun x => x * x)).sum) := by
      constructor <;> nlinarith [hcs, hM2, hM]
    have hcos : cosineSimilarity a b =
        (List.zipWith (fun x y => x * y) a b).sum /
          (Real.sqrt ((a.map (fun x => x * x)).sum) *
            Real.sqrt ((b.map (fun x => x * x)).sum)) := by
      show (if Real.sqrt ((a.map (fun x => x * x)).sum) = 0 ∨
          Real.sqrt ((b.map (fun x => x * x)).sum) = 0 then (0 : ℝ)
        else (List.zipWith (fun x y => x * y) a b).sum /
          (Real.sqrt ((a.map (fun x => x * x)).sum) *
            Real.sqrt ((b.map (fun x => x * x)).sum))) = _
      rw [if_neg]
      push_neg
      exact ⟨ne_of_gt hmagA, ne_of_gt hmagB⟩
    rw [hcos]
    constructor
    · rw [le_div_iff hM]
      linarith [habs.1]
    · rw [div_le_one hM]
      exact habs.2
  · intro h
    have hzero : Real.sqrt ((a.map (fun x => x * x)).sum) = 0 ∨
        Real.sqrt ((b.map (fun x => x * x)).sum) = 0 := by
      rcases h with h | h
      · left
        have : (a.map (fun x => x * x)).sum = 0 := by
          apply List.sum_eq_zero
          intro z hz
          obtain ⟨w, hw, rfl⟩ := List.mem_map.mp hz
          rw [h w hw, mul_zero]
        rw [this, Real.sqrt_zero]
      · right
        have : (b.map (fun x => x * x)).sum = 0 := by
          apply List.sum_eq_zero
          intro z hz
          obtain ⟨w, hw, rfl⟩ := List.mem_map.mp hz
          rw [h w hw, mul_zero]
        rw [this, Real.sqrt_zero]
    show (if Real.sqrt ((a.map (fun x => x * x)).sum) = 0 ∨
        Real.sqrt ((b.map (fun x => x * x)).sum) = 0 then (0 : ℝ)
      else (List.zipWith (fun x y => x * y) a b).sum /
        (Real.sqrt ((a.map (fun x => x * x)).sum) *
          Real.sqrt ((b.map (fun x => x * x)).sum))) = 0
    rw [if_pos hzero]

/-- Witness: C7 at the concrete vectors [1], [1] and [0], [1]. -/
theorem cosineSimilarity_bounds_witness :
    (-1 ≤ cosineSimilarity [1] [1] ∧ cosineSimilarity [1] [1] ≤ 1) ∧
    cosineSimilarity [0] [1] = 0 :=
  ⟨(cosineSimilarity_bounds [1] [1] rfl).1 ⟨1, by simp, one_ne_zero⟩
      ⟨1, by simp, one_ne_zero⟩,
   (cosineSimilarity_bounds [0] [1] rfl).2 (Or.inl (by
      intro x hx
      simpa using hx))⟩

/-! ## Semantic search: length bound and score ordering -/

theorem pairwise_score_take (q : List ℝ) (db : VDB (List ℝ))
    (sims : List (JEntry × ℝ)) (k : Nat)
    (hmem : ∀ pr ∈ sims, pr.2 = entryScore q db pr.1) :
    (((List.insertionSort scoreGE sims).take k).map (fun p => p.1)).Pairwise
      (fun e1 e2 => entryScore q db e2 ≤ entryScore q db e1) := by
  rw [List.pairwise_map]
  have hsorted : (List.insertionSort scoreGE sims).Pairwise scoreGE :=
    List.sorted_insertionSort scoreGE sims
  have htake : ((List.insertionSort scoreGE sims).take k).Pairwise scoreGE :=
    List.Pairwise.sublist (List.take_sublist _ _) hsorted
  refine List.Pairwise.imp_of_mem ?_ htake
  intro p1 p2 hp1 hp2 hr
  have hm1 : p1 ∈ sims := (List.perm_insertionSort scoreGE sims).mem_iff.mp
    ((List.take_sublist _ _).subset hp1)
  have hm2 : p2 ∈ sims := (List.perm_insertionSort scoreGE sims).mem_iff.mp
    ((List.take_sublist _ _).subset hp2)
  have h1 := hmem p1 hm1
  have h2 := hmem p2 hm2
  rw [← h1, ← h2]
  exact hr

/-- C6: for every query embedding and k, `semanticSearch` returns at most k
entries, ordered by non-increasing cosine-similarity score against the
query; and when the query embedding cannot be obtained it returns the empty
list rather than an error. -/
theorem semanticSearch_spec (q : List ℝ) (vectorDb : VDB (List ℝ))
    (allEntries : List JEntry) (topK : Nat) :
    semanticSearch none vectorDb allEntries topK = [] ∧
    (semanticSearch (some q) vectorDb allEntries topK).length ≤ topK ∧
    (semanticSearch (some q) vectorDb allEntries topK).Pairwise
      (fun e1 e2 => entryScore q vectorDb e2 ≤ entryScore q vectorDb e1) := by
  refine ⟨rfl, ?_, ?_⟩
  · show (((List.insertionSort scoreGE (allEntries.filterMap (fun e =>
        (dbLookup vectorDb e.id).map (fun emb =>
          (e, cosineSimilarity q emb))))).take topK).map (fun p => p.1)).length ≤ topK
    rw [List.length_map, List.length_take]
    exact min_le_left _ _
  · show (((List.insertionSort scoreGE (allEntries.filterMap (fun e =>
        (dbLookup vectorDb e.id).map (fun emb =>
          (e, cosineSimilarity q emb))))).take topK).map (fun p => p.1)).Pairwise
      (fun e1 e2 => entryScore q vectorDb e2 ≤ entryScore q vectorDb e1)
    apply pairwise_score_take
    intro pr hpr
    obtain ⟨e, _, heq⟩ := List.mem_filterMap.mp hpr
    obtain ⟨emb, hemb, hpr'⟩ := Option.map_eq_some'.mp heq
    rw [← hpr']
    show cosineSimilarity q emb = entryScore q vectorDb e
    rw [entryScore, hemb]
